import Mathlib

/-!
# Verification of the blab/trajectories train/test split and trajectory tools

Shallow embedding of the algorithmic core of `scripts/train_test_split.py`,
`scripts/trajectory.py` and `scripts/pairwise_trajectory.py`, together with
proofs of the specification claims about them.

Modelling conventions:
* Python dicts are modelled as lookup functions built by folding over the
  input (last assignment wins), or passed as abstract `String → Option _`
  functions where the dict is an input of the modelled function.
* Python floats are modelled exactly over `ℚ`; `int()` truncation toward
  zero is `pyTrunc`.
* `while` loops that walk a parent map are given explicit fuel, since a
  corrupt map could make the Python loop diverge; claims are stated so that
  they hold for every fuel value, or under a hypothesis saying that the
  walk completed (reached a root).
* `random.shuffle` / the `random` sampling stream are modelled by passing
  the shuffled list (resp. the stream of drawn numbers) as an explicit
  argument; the Python RNG makes these a deterministic function of the seed.
-/

namespace Trajectories

/-! ## Pair index inversion (`pairwise_trajectory.generate_pairs`)

The source enumerates unordered pairs row by row, row `i` holding
`(0,i) … (i-1,i)`, so row `i` starts at the triangular number `i*(i-1)/2`.
Given a flat index it computes a float estimate
`i = int((1 + sqrt(1 + 8*idx)) / 2)` and then fixes it up with two loops.
We model the float estimate by an arbitrary natural-number starting point
(`Nat.sqrt` based in `generatePairs`) and prove the result is independent
of it, which covers whatever the float computation returns. -/

/-- Start index of row `i` in the pair enumeration: `i*(i-1)//2`. -/
def triIdx (i : ℕ) : ℕ := i * (i - 1) / 2

/-- First adjustment loop of `generate_pairs`: `while i*(i-1)//2 > idx: i -= 1`. -/
def adjustDown (idx : ℕ) : ℕ → ℕ
  | 0 => 0
  | i + 1 => if idx < triIdx (i + 1) then adjustDown idx i else i + 1

/-- Second adjustment loop of `generate_pairs`: `while (i+1)*i//2 <= idx: i += 1`. -/
def adjustUp (idx : ℕ) (i : ℕ) : ℕ :=
  if triIdx (i + 1) ≤ idx then adjustUp idx (i + 1) else i
termination_by idx + 2 - i
decreasing_by
  have h1 : i ≤ triIdx (i + 1) := by
    unfold triIdx
    rcases i with _ | j
    · simp
    · have : j + 2 ≤ (j + 2) * (j + 1) := Nat.le_mul_of_pos_right _ (by omega)
      calc j + 1 ≤ (j + 2) * (j + 1) / 2 := Nat.le_div_iff_mul_le (by omega) |>.mpr (by nlinarith)
        _ = (j + 1 + 1) * (j + 1 + 1 - 1) / 2 := by norm_num
  omega

/-- Index inversion of `generate_pairs`: adjustment loops from an arbitrary
initial estimate `i0`, then `j = idx - i*(i-1)//2`; returns `(j, i)`. -/
def invertPair (idx i0 : ℕ) : ℕ × ℕ :=
  let i := adjustUp idx (adjustDown idx i0)
  (idx - triIdx i, i)

theorem triIdx_succ (i : ℕ) : triIdx (i + 1) = triIdx i + i := by
  unfold triIdx
  rcases i with _ | j
  · simp
  · have h2 : (j + 2) * (j + 1) = (j + 1) * j + 2 * (j + 1) := by ring
    have h3 : (j + 1 + 1) * (j + 1 + 1 - 1) = (j + 2) * (j + 1) := by norm_num
    rw [h3, h2, Nat.add_mul_div_left _ _ (by omega : 0 < 2)]
    norm_num

theorem triIdx_mono : Monotone triIdx := by
  have h : ∀ i, triIdx i ≤ triIdx (i + 1) := fun i => by
    rw [triIdx_succ]; omega
  exact monotone_nat_of_le_succ h

theorem adjustDown_le (idx : ℕ) : ∀ i, triIdx (adjustDown idx i) ≤ idx := by
  intro i
  induction i with
  | zero => simp [adjustDown, triIdx]
  | succ j ih =>
    unfold adjustDown
    by_cases h : idx < triIdx (j + 1)
    · simpa [h] using ih
    · simpa [h] using Nat.le_of_not_lt h

theorem adjustUp_spec (idx : ℕ) : ∀ i, triIdx i ≤ idx →
    triIdx (adjustUp idx i) ≤ idx ∧ idx < triIdx (adjustUp idx i + 1) := by
  intro i
  induction i using (adjustUp.induct idx) with
  | case1 i hle ih =>
    intro _
    rw [adjustUp, if_pos hle]
    exact ih hle
  | case2 i hgt =>
    intro hle
    rw [adjustUp, if_neg hgt]
    exact ⟨hle, Nat.lt_of_not_le hgt⟩

/-- The row found by the adjustment loops: `triIdx i ≤ idx < triIdx (i+1)`,
independently of the initial estimate. -/
theorem invertPair_row (idx i0 : ℕ) :
    triIdx (invertPair idx i0).2 ≤ idx ∧ idx < triIdx ((invertPair idx i0).2 + 1) :=
  adjustUp_spec idx _ (adjustDown_le idx i0)

/-- Any `i` with `triIdx i ≤ idx < triIdx (i+1)` is unique. -/
theorem triIdx_window_unique {idx i i' : ℕ}
    (h1 : triIdx i ≤ idx) (h2 : idx < triIdx (i + 1))
    (h1' : triIdx i' ≤ idx) (h2' : idx < triIdx (i' + 1)) : i = i' := by
  by_contra hne
  rcases Nat.lt_or_ge i i' with h | h
  · exact absurd (le_trans h2 (triIdx_mono (by omega : i + 1 ≤ i'))) (by omega)
  · have : i' < i := by omega
    exact absurd (le_trans h2' (triIdx_mono (by omega : i' + 1 ≤ i))) (by omega)

/-- C5 core: for `idx < triIdx n` the inversion returns the unique `(j, i)`
with `j < i < n` and `triIdx i + j = idx`. -/
theorem invertPair_correct (n idx i0 : ℕ) (hn : 2 ≤ n) (hidx : idx < triIdx n) :
    (invertPair idx i0).1 < (invertPair idx i0).2 ∧
    (invertPair idx i0).2 < n ∧
    triIdx (invertPair idx i0).2 + (invertPair idx i0).1 = idx ∧
    (∀ j' i', j' < i' → i' < n → triIdx i' + j' = idx →
      j' = (invertPair idx i0).1 ∧ i' = (invertPair idx i0).2) := by
  obtain ⟨hlo, hhi⟩ := invertPair_row idx i0
  set i := (invertPair idx i0).2 with hi
  have hj : (invertPair idx i0).1 = idx - triIdx i := rfl
  have hsum : triIdx i + (idx - triIdx i) = idx := by omega
  have hjlt : idx - triIdx i < i := by
    have := triIdx_succ i
    omega
  have hin : i < n := by
    by_contra hge
    exact absurd (le_trans hidx (triIdx_mono (by omega : n ≤ i))) (by omega)
  refine ⟨by rw [hj]; exact hjlt, hin, by rw [hj]; exact hsum, ?_⟩
  intro j' i' hji hin' hsum'
  have hlo' : triIdx i' ≤ idx := by omega
  have hhi' : idx < triIdx (i' + 1) := by
    rw [triIdx_succ]; omega
  have : i' = i := triIdx_window_unique hlo' hhi' hlo hhi
  subst this
  constructor
  · omega
  · rfl

/-! ## Pair generation (`pairwise_trajectory.generate_pairs`) -/

/-- `itertools.combinations(items, 2)`. -/
def combinations2 {α : Type} : List α → List (α × α)
  | [] => []
  | x :: xs => xs.map (fun y => (x, y)) ++ combinations2 xs

/-- The `while len(selected_indices) < limit` sampling loop.  `stream k` is
the `k`-th value returned by `random.randint(0, total_pairs - 1)` (a
deterministic function of the seed); duplicates are dropped as in the
Python set.  Fuel bounds the number of draws. -/
def sampleIndices (stream : ℕ → ℕ) (lim : ℕ) : ℕ → ℕ → List ℕ → List ℕ
  | 0, _, acc => acc
  | fuel + 1, k, acc =>
    if lim ≤ acc.length then acc
    else sampleIndices stream lim fuel (k + 1)
      (if stream k ∈ acc then acc else acc ++ [stream k])

/-- Initial row estimate `int((1 + (1 + 8*idx) ** 0.5) / 2)`, with the float
square root modelled by `Nat.sqrt`; `invertPair_correct` shows the final
result does not depend on this estimate. -/
def initEstimate (idx : ℕ) : ℕ := (1 + Nat.sqrt (1 + 8 * idx)) / 2

/-- `generate_pairs(items, limit, seed)`: all pairs when no effective limit,
otherwise sample distinct flat indices and invert each one. -/
def generatePairs (items : List String) (limit : Option ℕ) (stream : ℕ → ℕ)
    (fuel : ℕ) : List (String × String) :=
  let n := items.length
  let total := n * (n - 1) / 2
  match limit with
  | none => combinations2 items
  | some lim =>
    if total ≤ lim then combinations2 items
    else
      (sampleIndices stream lim fuel 0 []).map fun idx =>
        let p := invertPair idx (initEstimate idx)
        (items.getD p.1 "", items.getD p.2 "")

theorem sampleIndices_sound (stream : ℕ → ℕ) (lim : ℕ) :
    ∀ fuel k acc, acc.Nodup → (∀ x ∈ acc, ∃ m, x = stream m) → acc.length ≤ lim →
      (sampleIndices stream lim fuel k acc).Nodup ∧
      (∀ x ∈ sampleIndices stream lim fuel k acc, ∃ m, x = stream m) ∧
      (sampleIndices stream lim fuel k acc).length ≤ lim := by
  intro fuel
  induction fuel with
  | zero => intro k acc h1 h2 h3; exact ⟨h1, h2, h3⟩
  | succ f ih =>
    intro k acc h1 h2 h3
    unfold sampleIndices
    by_cases hfull : lim ≤ acc.length
    · simpa [hfull] using ⟨h1, h2, h3⟩
    · rw [if_neg hfull]
      by_cases hmem : stream k ∈ acc
      · exact ih (k + 1) _ (by simpa [hmem] using h1) (by simpa [hmem] using h2)
          (by simpa [hmem] using h3)
      · refine ih (k + 1) _ ?_ ?_ ?_
        · simp only [hmem, if_neg, ite_false]
          exact h1.append (by simp) (by simpa using hmem)
        · intro x hx
          simp only [hmem, ite_false, List.mem_append, List.mem_singleton] at hx
          rcases hx with hx | hx
          · exact h2 x hx
          · exact ⟨k, hx⟩
        · simp only [hmem, ite_false, List.length_append, List.length_singleton]
          omega

/-! ## Branch table parsing (`trajectory.parse_branches`)

A row of `branches.tsv`.  The `hamming` column is a decimal string or the
literal `?`; we model it as `Option ℕ` (`none` = `?`), leaving decimal
parsing to the I/O layer.  An empty `trainTest` string means the column was
empty, in which case the row assigns no label. -/

structure BranchRow where
  parent : String
  child : String
  hamming : Option ℕ
  trainTest : String
deriving Repr, DecidableEq

/-- `parent_of[child] = parent` built row by row; a later row for the same
child overwrites an earlier one, as with the Python dict. -/
def parentOfRows (rows : List BranchRow) (c : String) : Option String :=
  rows.foldl (fun acc r => if r.child = c then some r.parent else acc) none

/-- `hamming_of[(parent, child)]`, with `?` stored as `0`. -/
def hammingOfRows (rows : List BranchRow) (p c : String) : Option ℕ :=
  rows.foldl
    (fun acc r => if r.parent = p ∧ r.child = c then some (r.hamming.getD 0) else acc)
    none

/-- `train_test_of[child]`: only rows with a non-empty `train_test` column
assign a label, so a node never appearing in the child column has none. -/
def trainTestOfRows (rows : List BranchRow) (c : String) : Option String :=
  rows.foldl
    (fun acc r => if r.child = c ∧ r.trainTest ≠ "" then some r.trainTest else acc)
    none

/-- All names occurring in the child column. -/
def childNames (rows : List BranchRow) : List String := rows.map (·.child)

/-- `pairwise_trajectory.find_test_clade_roots`: children labelled test whose
parent's label (defaulted to train) is train.  Iteration over the
`parent_of` dict is modelled by deduplicating the child column. -/
def findTestCladeRoots (rows : List BranchRow) : List String :=
  (childNames rows).dedup.filter fun c =>
    match parentOfRows rows c with
    | none => false
    | some p =>
      decide (trainTestOfRows rows c = some "test") &&
      decide ((trainTestOfRows rows p).getD "train" = "train")

/-! ## Root-to-tip paths (`trajectory.get_path_to_root`, `find_test_boundary`) -/

/-- `get_path_to_root`: `[tip, parent, …]`, stopping at a node with no
parent entry (the root) or when the fuel runs out. -/
def getPathToRoot (parentOf : String → Option String) : ℕ → String → List String
  | 0, current => [current]
  | fuel + 1, current =>
    match parentOf current with
    | none => [current]
    | some p => current :: getPathToRoot parentOf fuel p

/-- The `for i, node in enumerate(path)` loop of `find_test_boundary`,
with the running index explicit. -/
def findTestBoundaryAux (tt : String → Option String) : List String → ℕ → Option ℕ
  | [], _ => none
  | n :: rest, i =>
    if tt n = some "test" then some i else findTestBoundaryAux tt rest (i + 1)

/-- `find_test_boundary`: index of the first node of the path whose label
is test, or `None`. -/
def findTestBoundary (path : List String) (tt : String → Option String) : Option ℕ :=
  findTestBoundaryAux tt path 0

/-- The per-tip truncation step of `trajectory.main`: a test-labelled tip's
path is dropped up to the first test node; other tips keep the whole path.
(When the branch table carries no labels at all, `main` skips the check
entirely; then every `tt` lookup is `none` and this definition agrees.) -/
def truncateForTip (path : List String) (tt : String → Option String)
    (tip : String) : List String :=
  if (tt tip).getD "train" = "test" then
    match findTestBoundary path tt with
    | some b => path.drop b
    | none => path
  else path

/-! ## Trajectory emission (`trajectory.write_trajectory`) -/

/-- One emitted FASTA entry: node name and cumulative Hamming distance. -/
structure Frame where
  node : String
  dist : ℕ
deriving Repr, DecidableEq

/-- Loop body of `write_trajectory` over the non-initial path nodes.
`sequences n = ""` models a node absent from the alignment
(`sequences.get(node, '')`); `ham p n` models `hamming_of.get((p, n), 0)`.
Returns the emitted frames and the final cumulative distance. -/
def writeTrajectoryGo (sequences : String → String) (ham : String → String → ℕ)
    (lastNode : String) : String → List String → ℕ → List Frame × ℕ
  | _, [], cum => ([], cum)
  | prev, node :: rest, cum =>
    let bd := ham prev node
    let cum' := cum + bd
    if bd = 0 ∧ node ≠ lastNode then
      writeTrajectoryGo sequences ham lastNode node rest cum'
    else if sequences node = "" then
      writeTrajectoryGo sequences ham lastNode node rest cum'
    else
      let r := writeTrajectoryGo sequences ham lastNode node rest cum'
      (⟨node, cum'⟩ :: r.1, r.2)

/-- `write_trajectory` on a root-to-tip path: the first node has no branch
check (it is emitted whenever its sequence is present, at distance 0),
then the loop body runs over the rest. -/
def writeTrajectory (path : List String) (sequences : String → String)
    (ham : String → String → ℕ) : List Frame × ℕ :=
  match path with
  | [] => ([], 0)
  | first :: rest =>
    let lastNode := (first :: rest).getLast (by simp)
    let r := writeTrajectoryGo sequences ham lastNode first rest 0
    ((if sequences first = "" then [] else [⟨first, 0⟩]) ++ r.1, r.2)

/-- Sum of the branch distances along a chain starting at `prev`. -/
def sumDists (ham : String → String → ℕ) : String → List String → ℕ
  | _, [] => 0
  | prev, n :: rest => ham prev n + sumDists ham n rest

/-- Reference form of the loop: annotate every step `(parent, node)` with
the cumulative distance regardless of emission, then keep exactly the steps
with nonzero branch distance or the terminal name, whose sequence is
present.  `writeTrajectoryGo_spec` shows the interleaved skip/accumulate
loop equals this annotate-then-filter form. -/
def cumSteps (ham : String → String → ℕ) : String → List String → ℕ →
    List (String × String × ℕ)
  | _, [], _ => []
  | prev, n :: rest, cum => (prev, n, cum + ham prev n) :: cumSteps ham n rest (cum + ham prev n)

def stepFrames (sequences : String → String) (ham : String → String → ℕ)
    (lastNode : String) (prev : String) (rest : List String) (cum : ℕ) : List Frame :=
  (cumSteps ham prev rest cum).filterMap fun s =>
    if (ham s.1 s.2.1 ≠ 0 ∨ s.2.1 = lastNode) ∧ sequences s.2.1 ≠ "" then
      some ⟨s.2.1, s.2.2⟩
    else none

theorem writeTrajectoryGo_spec (sequences : String → String)
    (ham : String → String → ℕ) (lastNode : String) :
    ∀ rest prev cum,
      writeTrajectoryGo sequences ham lastNode prev rest cum =
        (stepFrames sequences ham lastNode prev rest cum, cum + sumDists ham prev rest) := by
  intro rest
  induction rest with
  | nil => intro prev cum; simp [writeTrajectoryGo, stepFrames, cumSteps, sumDists]
  | cons n rest ih =>
    intro prev cum
    have hstep : stepFrames sequences ham lastNode prev (n :: rest) cum =
        (if (ham prev n ≠ 0 ∨ n = lastNode) ∧ sequences n ≠ "" then
          [Frame.mk n (cum + ham prev n)] else []) ++
        stepFrames sequences ham lastNode n rest (cum + ham prev n) := by
      simp only [stepFrames, cumSteps, List.filterMap_cons]
      by_cases hc : (ham prev n ≠ 0 ∨ n = lastNode) ∧ sequences n ≠ ""
      · simp [hc]
      · simp [hc]
    rw [hstep]
    by_cases h1 : ham prev n = 0 ∧ n ≠ lastNode
    · have hcond : ¬ ((ham prev n ≠ 0 ∨ n = lastNode) ∧ sequences n ≠ "") := by
        rcases h1 with ⟨hz, hl⟩
        rintro ⟨h | h, _⟩
        · exact h hz
        · exact hl h
      rw [writeTrajectoryGo, if_pos h1, ih n (cum + ham prev n), if_neg hcond]
      simp [sumDists]
      omega
    · by_cases h2 : sequences n = ""
      · have hcond : ¬ ((ham prev n ≠ 0 ∨ n = lastNode) ∧ sequences n ≠ "") := by
          rintro ⟨_, hs⟩; exact hs h2
        rw [writeTrajectoryGo, if_neg h1, if_pos h2, ih n (cum + ham prev n), if_neg hcond]
        simp [sumDists]
        omega
      · have hcond : (ham prev n ≠ 0 ∨ n = lastNode) ∧ sequences n ≠ "" := by
          refine ⟨?_, h2⟩
          by_cases hz : ham prev n = 0
          · right
            by_contra hl
            exact h1 ⟨hz, hl⟩
          · exact Or.inl hz
        rw [writeTrajectoryGo, if_neg h1, if_neg h2, ih n (cum + ham prev n), if_pos hcond]
        simp [sumDists]
        omega

/-! ## Target sizes (`train_test_split`)

`iterative_test_selection` computes
`target_test_count = max(1, int(total_tips * test_proportion))` and
`max_clade_tips = int(total_tips * max_clade_proportion)`;
`monophyletic_test_selection` computes the same target.  Python `int()` on
a float truncates toward zero; the float product is modelled exactly by
the rational product. -/

/-- Python `int()` truncation toward zero on a rational. -/
def pyTrunc (q : ℚ) : ℤ := if 0 ≤ q then ⌊q⌋ else ⌈q⌉

/-- `max(1, int(total_tips * test_proportion))`. -/
def targetTestCount (totalTips : ℕ) (testProportion : ℚ) : ℕ :=
  max 1 (pyTrunc ((totalTips : ℚ) * testProportion)).toNat

/-- `int(total_tips * max_clade_proportion)`. -/
def maxCladeTipsOf (totalTips : ℕ) (maxCladeProportion : ℚ) : ℕ :=
  (pyTrunc ((totalTips : ℚ) * maxCladeProportion)).toNat

/-- The target as the specification document words it: `max(1,
round(total_tips * test_proportion))`, rounding to the nearest integer.
Stated from the spec only, for comparison with `targetTestCount`. -/
def roundTargetSpec (totalTips : ℕ) (testProportion : ℚ) : ℕ :=
  max 1 (round ((totalTips : ℚ) * testProportion)).toNat

/-! ## The tree (`train_test_split`)

An Auspice tree node: a name (`""` models a missing/empty `name` field, so
`if name:` guards become `name ≠ ""`), the per-gene mutation lists of
`branch_attrs.mutations`, and the child list. -/

inductive Tree where
  | node (name : String) (branchMuts : List (String × List String)) (children : List Tree)

def Tree.name : Tree → String
  | .node n _ _ => n

def Tree.branchMuts : Tree → List (String × List String)
  | .node _ m _ => m

def Tree.children : Tree → List Tree
  | .node _ _ c => c

mutual

/-- All nodes of the subtree in the traversal (pre-)order used by every
`traverse` helper of the source. -/
def preorder : Tree → List Tree
  | .node n m cs => .node n m cs :: preorderList cs

def preorderList : List Tree → List Tree
  | [] => []
  | c :: cs => preorder c ++ preorderList cs

end

/-- `get_all_descendants`: every named node of the subtree, in traversal
order (unnamed nodes are skipped but still traversed). -/
def getAllDescendants (t : Tree) : List String :=
  (preorder t).filterMap fun s => if s.name ≠ "" then some s.name else none

/-- `get_all_tips`: names of the childless nodes. -/
def getAllTips (t : Tree) : List String :=
  (preorder t).filterMap fun s =>
    if s.children.isEmpty ∧ s.name ≠ "" then some s.name else none

/-- `get_clade_tip_count`: number of childless nodes (named or not). -/
def cladeTipCount (t : Tree) : ℕ :=
  (preorder t).countP fun s => s.children.isEmpty

/-- `build_node_map` lookup: the last node in traversal order carrying the
(non-empty) name, matching dict overwrite semantics. -/
def nodeMapLookup (t : Tree) (n : String) : Option Tree :=
  if n = "" then none
  else (preorder t).foldl (fun acc s => if s.name = n then some s else acc) none

/-- `build_parent_map` as the list of `(child, parent)` name pairs it
inserts: one pair per child with a non-empty name whose parent also has a
non-empty name. -/
def parentPairs (t : Tree) : List (String × String) :=
  (preorder t).flatMap fun s =>
    s.children.filterMap fun c =>
      if c.name ≠ "" ∧ s.name ≠ "" then some (c.name, s.name) else none

/-- `build_parent_map` lookup (last insertion wins). -/
def parentMapLookup (t : Tree) (c : String) : Option String :=
  (parentPairs t).foldl (fun acc p => if p.1 = c then some p.2 else acc) none

/-! ## Mutation counting and walking (`count_mutations_on_branch`,
`walk_back_mutations`) -/

/-- `count_mutations_on_branch`: length of `branch_attrs.mutations[gene]`,
or, when both trim bounds are given, the number of entries whose position
`int(mut_str[1:-1])` parses and lies in the inclusive window (parse
failures are skipped, as by the `except` clause). -/
def countMutationsOnBranch (t : Tree) (gene : String)
    (trimBegin trimEnd : Option ℤ) : ℕ :=
  let gm := (List.lookup gene t.branchMuts).getD []
  match trimBegin, trimEnd with
  | some b, some e =>
    gm.countP fun m =>
      match ((m.drop 1).dropRight 1).toInt? with
      | some pos => decide (b ≤ pos ∧ pos ≤ e)
      | none => false
  | _, _ => gm.length

/-- The `while current_name in parent_map` loop of `walk_back_mutations`,
with the running mutation total as an explicit accumulator.  A name absent
from the node map contributes 0 (the source would raise a `KeyError`
there; for well-formed trees every parent-map name is in the node map). -/
def walkBackAux (pm : String → Option String) (nm : String → Option Tree)
    (target : ℕ) (gene : String) (tb te : Option ℤ) :
    ℕ → ℕ → String → String
  | fuel, acc, current =>
    match pm current with
    | none => current
    | some parent =>
      match fuel with
      | 0 => current
      | fuel' + 1 =>
        let bm := match nm current with
          | some t => countMutationsOnBranch t gene tb te
          | none => 0
        if target ≤ acc + bm then current
        else walkBackAux pm nm target gene tb te fuel' (acc + bm) parent

/-- `walk_back_mutations(tip, …)`: start at the tip with zero accumulated
mutations. -/
def walkBackMutations (pm : String → Option String) (nm : String → Option Tree)
    (target : ℕ) (gene : String) (tb te : Option ℤ) (fuel : ℕ)
    (tip : String) : String :=
  walkBackAux pm nm target gene tb te fuel 0 tip

/-! ## Monophyletic clade search (`find_monophyletic_clade`) -/

mutual

/-- Pre-order traversal annotated with the recursion depth of `search`. -/
def preorderDepth : Tree → ℕ → List (Tree × ℕ)
  | .node n m cs, d => (.node n m cs, d) :: preorderDepthList cs (d + 1)

def preorderDepthList : List Tree → ℕ → List (Tree × ℕ)
  | [], _ => []
  | c :: cs, d => preorderDepth c d ++ preorderDepthList cs d

end

/-- The `candidates` list of `find_monophyletic_clade`: every node whose
subtree tip count lies in `[target*(1-tolerance), target*(1+tolerance)]`,
with its tip count and depth, in search (pre-)order. -/
def monoCandidates (t : Tree) (targetSize : ℕ) (tolerance : ℚ) :
    List (Tree × ℕ × ℕ) :=
  (preorderDepth t 0).filterMap fun s =>
    let c := cladeTipCount s.1
    if (targetSize : ℚ) * (1 - tolerance) ≤ (c : ℚ) ∧
        (c : ℚ) ≤ (targetSize : ℚ) * (1 + tolerance) then
      some (s.1, c, s.2)
    else none

/-- `find_monophyletic_clade`: `none` models the `ValueError` raised when
no candidate exists; otherwise `min(candidates, key=abs(...))` — the first
candidate of minimal `|tip_count - target|`. -/
def findMonophyleticClade (t : Tree) (targetSize : ℕ) (tolerance : ℚ) :
    Option (Tree × ℕ × ℕ) :=
  match monoCandidates t targetSize tolerance with
  | [] => none
  | c :: cs =>
    some (cs.foldl
      (fun best x =>
        if |(x.2.1 : ℤ) - (targetSize : ℤ)| < |(best.2.1 : ℤ) - (targetSize : ℤ)| then x
        else best)
      c)

/-! ## Test selection strategies -/

/-- The `while len(test_tips) < target_test_count and available_tips` loop
of `iterative_test_selection`, flattened over the pops: each step pops one
candidate (the inner `while available_tips` loop's pops of already-tried or
already-test candidates change no state, so re-checking the outer condition
at every pop is equivalent).  A walk-back result absent from the node map
marks nothing (the source would raise `KeyError`; unreachable on
well-formed trees). -/
def iterLoop (nm : String → Option Tree) (pm : String → Option String)
    (allTips : List String) (target maxClade mb : ℕ) (gene : String)
    (tb te : Option ℤ) (walkFuel : ℕ) :
    List String → Finset String → Finset String → Finset String →
    Finset String × Finset String
  | [], testNodes, testTips, _ => (testNodes, testTips)
  | cand :: rest, testNodes, testTips, tried =>
    if target ≤ testTips.card then (testNodes, testTips)
    else if cand ∈ tried ∨ cand ∈ testTips then
      iterLoop nm pm allTips target maxClade mb gene tb te walkFuel
        rest testNodes testTips tried
    else
      let tried' := insert cand tried
      let anc := walkBackMutations pm nm mb gene tb te walkFuel cand
      match nm anc with
      | none =>
        iterLoop nm pm allTips target maxClade mb gene tb te walkFuel
          rest testNodes testTips tried'
      | some ancT =>
        if maxClade < cladeTipCount ancT then
          iterLoop nm pm allTips target maxClade mb gene tb te walkFuel
            rest testNodes testTips tried'
        else
          let descs := getAllDescendants ancT
          iterLoop nm pm allTips target maxClade mb gene tb te walkFuel
            rest (testNodes ∪ descs.toFinset)
            (testTips ∪ (descs.filter (· ∈ allTips)).toFinset) tried'

/-- `iterative_test_selection`.  `shuffled` is the output order of
`rng.shuffle(available_tips)` (a permutation of the tips determined by the
seed); `.pop()` takes from the end of that list, so the loop consumes
`shuffled.reverse` front to back. -/
def iterativeTestSelection (tree : Tree) (testProportion : ℚ) (mb : ℕ)
    (maxCladeProportion : ℚ) (gene : String) (shuffled : List String)
    (tb te : Option ℤ) (walkFuel : ℕ) : Finset String × Finset String :=
  let allTips := getAllTips tree
  let target := targetTestCount allTips.length testProportion
  let maxClade := maxCladeTipsOf allTips.length maxCladeProportion
  iterLoop (nodeMapLookup tree) (parentMapLookup tree) allTips target maxClade
    mb gene tb te walkFuel shuffled.reverse ∅ ∅ ∅

/-- `monophyletic_test_selection`; `none` propagates the `ValueError` of
`find_monophyletic_clade`. -/
def monophyleticTestSelection (tree : Tree) (testProportion : ℚ)
    (tolerance : ℚ) : Option (Finset String × Finset String) :=
  let allTips := getAllTips tree
  let target := targetTestCount allTips.length testProportion
  match findMonophyleticClade tree target tolerance with
  | none => none
  | some (clade, _, _) =>
    let testNodes := (getAllDescendants clade).toFinset
    some (testNodes, (allTips.filter (· ∈ testNodes)).toFinset)

/-! ## Structural lemmas about the traversals -/

theorem self_mem_preorder (t : Tree) : t ∈ preorder t := by
  cases t with
  | node n m cs => rw [preorder]; exact List.mem_cons_self _ _

mutual

theorem preorder_trans : ∀ (t : Tree), ∀ s ∈ preorder t, ∀ x ∈ preorder s, x ∈ preorder t
  | .node n m cs => by
    intro s hs x hx
    rw [preorder] at hs ⊢
    rcases List.mem_cons.mp hs with h | h
    · subst h
      rw [preorder] at hx
      exact hx
    · exact List.mem_cons.mpr (Or.inr (preorderList_trans cs s h x hx))

theorem preorderList_trans : ∀ (l : List Tree), ∀ s ∈ preorderList l, ∀ x ∈ preorder s, x ∈ preorderList l
  | [] => by simp [preorderList]
  | c :: cs => by
    intro s hs x hx
    rw [preorderList] at hs ⊢
    rcases List.mem_append.mp hs with h | h
    · exact List.mem_append_left _ (preorder_trans c s h x hx)
    · exact List.mem_append_right _ (preorderList_trans cs s h x hx)

end

theorem mem_getAllDescendants {t : Tree} {n : String} :
    n ∈ getAllDescendants t ↔ ∃ s ∈ preorder t, s.name = n ∧ n ≠ "" := by
  unfold getAllDescendants
  rw [List.mem_filterMap]
  constructor
  · rintro ⟨s, hs, hsn⟩
    by_cases h : s.name = ""
    · simp [h] at hsn
    · rw [if_pos h] at hsn
      obtain rfl := Option.some_inj.mp hsn
      exact ⟨s, hs, rfl, h⟩
  · rintro ⟨s, hs, rfl, hne⟩
    exact ⟨s, hs, by rw [if_pos hne]⟩

theorem getAllDescendants_mono {t s : Tree} (h : s ∈ preorder t) :
    ∀ d ∈ getAllDescendants s, d ∈ getAllDescendants t := by
  intro d hd
  obtain ⟨u, hu, hun, hne⟩ := mem_getAllDescendants.mp hd
  exact mem_getAllDescendants.mpr ⟨u, preorder_trans t s h u hu, hun, hne⟩

theorem nodeMapLookup_spec {t : Tree} {n : String} {s : Tree}
    (h : nodeMapLookup t n = some s) : s ∈ preorder t ∧ s.name = n := by
  unfold nodeMapLookup at h
  by_cases hn : n = ""
  · rw [if_pos hn] at h
    exact absurd h (by simp)
  · rw [if_neg hn] at h
    suffices haux : ∀ (l : List Tree) (init : Option Tree),
        l.foldl (fun acc x => if x.name = n then some x else acc) init = some s →
        init = some s ∨ (s ∈ l ∧ s.name = n) by
      rcases haux (preorder t) none h with h' | h'
      · exact absurd h' (by simp)
      · exact h'
    intro l
    induction l with
    | nil => intro init h'; exact Or.inl h'
    | cons x xs ih =>
      intro init h'
      rw [List.foldl_cons] at h'
      rcases ih _ h' with h'' | h''
      · by_cases hx : x.name = n
        · rw [if_pos hx] at h''
          obtain rfl := Option.some_inj.mp h''
          exact Or.inr ⟨List.mem_cons_self _ _, hx⟩
        · rw [if_neg hx] at h''
          exact Or.inl h''
      · exact Or.inr ⟨List.mem_cons.mpr (Or.inr h''.1), h''.2⟩

/-- Any fold that at each step keeps either the accumulator or the element
ends on the initial value or a list element. -/
theorem foldl_choice_mem {α : Type} (f : α → α → α)
    (hf : ∀ a b, f a b = a ∨ f a b = b) :
    ∀ (l : List α) (a : α), l.foldl f a ∈ a :: l := by
  intro l
  induction l with
  | nil => intro a; simp
  | cons x xs ih =>
    intro a
    rw [List.foldl_cons]
    have hmem := ih (f a x)
    rcases List.mem_cons.mp hmem with h' | h'
    · rcases hf a x with h | h
      · rw [h'.trans h]
        exact List.mem_cons_self _ _
      · rw [h'.trans h]
        exact List.mem_cons.mpr (Or.inr (List.mem_cons_self _ _))
    · exact List.mem_cons.mpr (Or.inr (List.mem_cons.mpr (Or.inr h')))

mutual

theorem preorderDepth_fst : ∀ (t : Tree) (d : ℕ),
    (preorderDepth t d).map Prod.fst = preorder t
  | .node n m cs, d => by
    rw [preorderDepth, preorder, List.map_cons, preorderDepthList_fst cs (d + 1)]

theorem preorderDepthList_fst : ∀ (l : List Tree) (d : ℕ),
    (preorderDepthList l d).map Prod.fst = preorderList l
  | [], d => by rw [preorderDepthList, preorderList, List.map_nil]
  | c :: cs, d => by
    rw [preorderDepthList, preorderList, List.map_append,
      preorderDepth_fst c d, preorderDepthList_fst cs d]

end

/-- Everything `find_monophyletic_clade` returns is a candidate. -/
theorem findMonophyleticClade_mem {t : Tree} {target : ℕ} {tol : ℚ}
    {r : Tree × ℕ × ℕ} (h : findMonophyleticClade t target tol = some r) :
    r ∈ monoCandidates t target tol := by
  unfold findMonophyleticClade at h
  split at h
  · exact absurd h (by simp)
  · next c cs hcand =>
    obtain rfl := Option.some_inj.mp h
    rw [hcand]
    exact foldl_choice_mem _ (fun a b => by split <;> simp) cs c

theorem mem_monoCandidates {t : Tree} {target : ℕ} {tol : ℚ} {r : Tree × ℕ × ℕ} :
    r ∈ monoCandidates t target tol ↔
      ∃ sd ∈ preorderDepth t 0,
        ((target : ℚ) * (1 - tol) ≤ (cladeTipCount sd.1 : ℚ) ∧
          (cladeTipCount sd.1 : ℚ) ≤ (target : ℚ) * (1 + tol)) ∧
        r = (sd.1, cladeTipCount sd.1, sd.2) := by
  unfold monoCandidates
  rw [List.mem_filterMap]
  constructor
  · rintro ⟨sd, hsd, hr⟩
    by_cases hc : (target : ℚ) * (1 - tol) ≤ (cladeTipCount sd.1 : ℚ) ∧
        (cladeTipCount sd.1 : ℚ) ≤ (target : ℚ) * (1 + tol)
    · rw [if_pos hc] at hr
      exact ⟨sd, hsd, hc, (Option.some_inj.mp hr).symm⟩
    · rw [if_neg hc] at hr
      exact absurd hr (by simp)
  · rintro ⟨sd, hsd, hc, rfl⟩
    exact ⟨sd, hsd, by rw [if_pos hc]⟩

/-! ## Downward closure of the test set (C1 machinery) -/

/-- When the tree's (non-empty) node names are pairwise distinct — the data
model invariant of an Auspice tree — a non-empty name identifies a unique
node of the traversal. -/
theorem name_unique {tree : Tree} (hnd : (getAllDescendants tree).Nodup)
    {u v : Tree} (hu : u ∈ preorder tree) (hv : v ∈ preorder tree)
    (hne : u.name ≠ "") (heq : u.name = v.name) : u = v := by
  by_contra hvu
  obtain ⟨l1, l2, hsplit⟩ := List.append_of_mem hu
  have hfla : getAllDescendants tree =
      (l1.filterMap fun s => if s.name ≠ "" then some s.name else none) ++
        u.name :: (l2.filterMap fun s => if s.name ≠ "" then some s.name else none) := by
    unfold getAllDescendants
    rw [hsplit, List.filterMap_append, List.filterMap_cons, if_pos hne]
  rw [hfla] at hnd
  rw [List.nodup_append] at hnd
  obtain ⟨_, hnd2, hdisj⟩ := hnd
  have hnotl1 : u.name ∉ l1.filterMap fun s => if s.name ≠ "" then some s.name else none :=
    fun hmem => hdisj hmem (List.mem_cons_self _ _)
  have hnotl2 : u.name ∉ l2.filterMap fun s => if s.name ≠ "" then some s.name else none :=
    (List.nodup_cons.mp hnd2).1
  have hvin : v ∈ l1 ∨ v ∈ l2 := by
    rw [hsplit] at hv
    rcases List.mem_append.mp hv with h | h
    · exact Or.inl h
    · rcases List.mem_cons.mp h with h | h
      · exact absurd h.symm hvu
      · exact Or.inr h
  have hvname : ∀ l : List Tree, v ∈ l →
      u.name ∈ l.filterMap fun s => if s.name ≠ "" then some s.name else none := by
    intro l hl
    rw [List.mem_filterMap]
    exact ⟨v, hl, by rw [← heq, if_pos hne]⟩
  rcases hvin with h | h
  · exact hnotl1 (hvname l1 h)
  · exact hnotl2 (hvname l2 h)

/-- The downward-closure property of claim C1: whenever a node id is in the
set, every descendant id of (the node named by) it is in the set. -/
def DownClosed (tree : Tree) (s : Finset String) : Prop :=
  ∀ n ∈ s, ∀ u ∈ preorder tree, u.name = n → ∀ d ∈ getAllDescendants u, d ∈ s

/-- Invariant maintained by both strategies: the set is a union of whole
clades of the tree. -/
def CladeUnion (tree : Tree) (s : Finset String) : Prop :=
  ∀ n ∈ s, n ≠ "" ∧ ∃ u ∈ preorder tree, u.name = n ∧ ∀ d ∈ getAllDescendants u, d ∈ s

theorem cladeUnion_downClosed {tree : Tree} {s : Finset String}
    (hnd : (getAllDescendants tree).Nodup) (hc : CladeUnion tree s) :
    DownClosed tree s := by
  intro n hn u hu hname
  obtain ⟨hne, w, hw, hwname, hsub⟩ := hc n hn
  have huw : u = w := name_unique hnd hu hw (hname ▸ hne) (by rw [hname, hwname])
  rw [huw]
  exact hsub

theorem cladeUnion_empty (tree : Tree) : CladeUnion tree ∅ := by
  intro n hn
  exact absurd hn (Finset.not_mem_empty n)

theorem cladeUnion_union_descs {tree : Tree} {s : Finset String} {anc : Tree}
    (hanc : anc ∈ preorder tree) (hc : CladeUnion tree s) :
    CladeUnion tree (s ∪ (getAllDescendants anc).toFinset) := by
  intro n hn
  rcases Finset.mem_union.mp hn with h | h
  · obtain ⟨hne, w, hw, hwname, hsub⟩ := hc n h
    exact ⟨hne, w, hw, hwname,
      fun d hd => Finset.mem_union_left _ (hsub d hd)⟩
  · rw [List.mem_toFinset] at h
    obtain ⟨w, hw, hwname, hne⟩ := mem_getAllDescendants.mp h
    refine ⟨hne, w, preorder_trans tree anc hanc w hw, hwname, ?_⟩
    intro d hd
    exact Finset.mem_union_right _
      (List.mem_toFinset.mpr (getAllDescendants_mono hw d hd))

theorem iterLoop_cladeUnion (tree : Tree) (pm : String → Option String)
    (allTips : List String) (target maxClade mb : ℕ) (gene : String)
    (tb te : Option ℤ) (walkFuel : ℕ) :
    ∀ (avail : List String) (tn tt tr : Finset String), CladeUnion tree tn →
      CladeUnion tree
        (iterLoop (nodeMapLookup tree) pm allTips target maxClade mb gene tb te
          walkFuel avail tn tt tr).1 := by
  intro avail
  induction avail with
  | nil => intro tn tt tr hc; rw [iterLoop]; exact hc
  | cons cand rest ih =>
    intro tn tt tr hc
    rw [iterLoop]
    by_cases h1 : target ≤ tt.card
    · rw [if_pos h1]; exact hc
    · rw [if_neg h1]
      by_cases h2 : cand ∈ tr ∨ cand ∈ tt
      · rw [if_pos h2]; exact ih tn tt tr hc
      · rw [if_neg h2]
        dsimp only
        rcases hnm : nodeMapLookup tree
            (walkBackMutations pm (nodeMapLookup tree) mb gene tb te walkFuel cand)
          with _ | ancT
        · exact ih tn tt _ hc
        · dsimp only
          by_cases h3 : maxClade < cladeTipCount ancT
          · rw [if_pos h3]
            exact ih tn tt _ hc
          · rw [if_neg h3]
            exact ih _ _ _
              (cladeUnion_union_descs (nodeMapLookup_spec hnm).1 hc)

/-! ## Boundary search lemmas (C2/C10 machinery) -/

theorem findTestBoundaryAux_some {tt : String → Option String} :
    ∀ {l : List String} {i b : ℕ}, findTestBoundaryAux tt l i = some b →
      i ≤ b ∧ b - i < l.length ∧ (∀ r ∈ l.get? (b - i), tt r = some "test") ∧
      ∀ m, m < b - i → ∀ r ∈ l.get? m, tt r ≠ some "test" := by
  intro l
  induction l with
  | nil => intro i b h; exact absurd h (by simp [findTestBoundaryAux])
  | cons n rest ih =>
    intro i b h
    rw [findTestBoundaryAux] at h
    by_cases hn : tt n = some "test"
    · rw [if_pos hn] at h
      obtain rfl := Option.some_inj.mp h
      refine ⟨le_refl _, by simp, ?_, ?_⟩
      · intro r hr
        simp only [Nat.sub_self, List.get?] at hr
        obtain rfl := Option.some_inj.mp hr
        exact hn
      · intro m hm
        exact absurd hm (by omega)
    · rw [if_neg hn] at h
      obtain ⟨h1, h2, h3, h4⟩ := ih h
      have hbi : b - i = (b - (i + 1)) + 1 := by omega
      refine ⟨by omega, by simp only [List.length_cons]; omega, ?_, ?_⟩
      · intro r hr
        rw [hbi] at hr
        exact h3 r hr
      · intro m hm r hr
        rcases m with _ | m'
        · simp only [List.get?] at hr
          obtain rfl := Option.some_inj.mp hr
          exact hn
        · exact h4 m' (by omega) r hr

theorem findTestBoundaryAux_isSome {tt : String → Option String} :
    ∀ {l : List String}, (∃ x ∈ l, tt x = some "test") →
      ∀ i, ∃ b, findTestBoundaryAux tt l i = some b := by
  intro l
  induction l with
  | nil => rintro ⟨x, hx, _⟩; exact absurd hx (List.not_mem_nil x)
  | cons n rest ih =>
    rintro ⟨x, hx, hxt⟩ i
    rw [findTestBoundaryAux]
    by_cases hn : tt n = some "test"
    · exact ⟨i, by rw [if_pos hn]⟩
    · rw [if_neg hn]
      rcases List.mem_cons.mp hx with h | h
      · exact absurd (h ▸ hxt) hn
      · exact ih ⟨x, h, hxt⟩ (i + 1)

theorem findTestBoundary_spec {path : List String} {tt : String → Option String}
    {b : ℕ} (h : findTestBoundary path tt = some b) :
    b < path.length ∧ (∀ r ∈ path.get? b, tt r = some "test") ∧
      ∀ m, m < b → ∀ r ∈ path.get? m, tt r ≠ some "test" := by
  obtain ⟨_, h2, h3, h4⟩ := findTestBoundaryAux_some h
  rw [Nat.sub_zero] at h2 h3 h4
  exact ⟨h2, h3, h4⟩

theorem getPathToRoot_head? (parentOf : String → Option String) :
    ∀ (fuel : ℕ) (c : String), (getPathToRoot parentOf fuel c).head? = some c := by
  intro fuel c
  cases fuel with
  | zero => rfl
  | succ f =>
    rw [getPathToRoot]
    cases parentOf c <;> rfl

/-- C2: for every tip whose walk reached a root (a node with no parent
entry), the emitted path of `trajectory.main` starts at that root when the
tip is not labelled test; when the tip is labelled test it starts at the
first test-labelled node of the root-to-tip path, and every strictly
earlier node of the path is not labelled test. -/
theorem claim_c2_truncation (parentOf tt : String → Option String)
    (tip root : String) (fuel : ℕ)
    (hroot : (getPathToRoot parentOf fuel tip).getLast? = some root)
    (hrootp : parentOf root = none) :
    ((getPathToRoot parentOf fuel tip).reverse.head? = some root ∧
      parentOf root = none) ∧
    ((tt tip).getD "train" ≠ "test" →
      truncateForTip (getPathToRoot parentOf fuel tip).reverse tt tip =
        (getPathToRoot parentOf fuel tip).reverse) ∧
    ((tt tip).getD "train" = "test" →
      ∃ b, findTestBoundary (getPathToRoot parentOf fuel tip).reverse tt = some b ∧
        truncateForTip (getPathToRoot parentOf fuel tip).reverse tt tip =
          ((getPathToRoot parentOf fuel tip).reverse).drop b ∧
        (∀ r ∈ (((getPathToRoot parentOf fuel tip).reverse).drop b).head?,
          tt r = some "test") ∧
        (∀ m, m < b → ∀ r ∈ ((getPathToRoot parentOf fuel tip).reverse).get? m,
          tt r ≠ some "test")) := by
  refine ⟨⟨by rw [List.head?_reverse]; exact hroot, hrootp⟩, ?_, ?_⟩
  · intro hnott
    unfold truncateForTip
    rw [if_neg hnott]
  · intro htest
    have httip : tt tip = some "test" := by
      rcases h : tt tip with _ | v
      · rw [h] at htest
        exact absurd htest (by simp)
      · rw [h] at htest
        rw [Option.getD_some] at htest
        rw [htest]
    have htipmem : tip ∈ (getPathToRoot parentOf fuel tip).reverse :=
      List.mem_reverse.mpr
        (List.mem_of_mem_head? (getPathToRoot_head? parentOf fuel tip))
    obtain ⟨b, hb⟩ :=
      findTestBoundaryAux_isSome ⟨tip, htipmem, httip⟩ 0
    obtain ⟨hblen, hbtest, hbefore⟩ := findTestBoundary_spec hb
    refine ⟨b, hb, ?_, ?_, hbefore⟩
    · unfold truncateForTip
      rw [if_pos htest, findTestBoundary] at *
      rw [hb]
    · intro r hr
      rw [List.head?_drop] at hr
      exact hbtest r (by rw [List.get?_eq_getElem?]; exact hr)

/-! ## Emission characterization (C4/C9 machinery) -/

/-- The final cumulative distance of `write_trajectory`: the sum of every
branch distance along the path, skipped nodes included. -/
def totalDist (ham : String → String → ℕ) : List String → ℕ
  | [] => 0
  | first :: rest => sumDists ham first rest

/-- The frame list of `write_trajectory` in annotate-then-filter form: the
start node is emitted iff its sequence is present (at distance 0); every
later node is emitted iff (its branch distance is nonzero or it carries
the terminal name) and its sequence is present, annotated with the
cumulative distance over all earlier branches, skipped or not. -/
def emittedReference (path : List String) (seqs : String → String)
    (ham : String → String → ℕ) : List Frame :=
  match path with
  | [] => []
  | first :: rest =>
    (if seqs first = "" then [] else [⟨first, 0⟩]) ++
    stepFrames seqs ham ((first :: rest).getLast (by simp)) first rest 0

theorem writeTrajectory_spec (path : List String) (seqs : String → String)
    (ham : String → String → ℕ) :
    writeTrajectory path seqs ham =
      (emittedReference path seqs ham, totalDist ham path) := by
  cases path with
  | nil => rfl
  | cons f r =>
    simp only [writeTrajectory, emittedReference, totalDist]
    rw [writeTrajectoryGo_spec]
    simp

theorem stepFrames_cons (seqs : String → String) (ham : String → String → ℕ)
    (lastNode prev n : String) (rest : List String) (cum : ℕ) :
    stepFrames seqs ham lastNode prev (n :: rest) cum =
      (if (ham prev n ≠ 0 ∨ n = lastNode) ∧ seqs n ≠ "" then
        [Frame.mk n (cum + ham prev n)] else []) ++
      stepFrames seqs ham lastNode n rest (cum + ham prev n) := by
  simp only [stepFrames, cumSteps, List.filterMap_cons]
  by_cases hc : (ham prev n ≠ 0 ∨ n = lastNode) ∧ seqs n ≠ ""
  · simp [hc]
  · simp [hc]

theorem stepFrames_getLast (seqs : String → String) (ham : String → String → ℕ)
    (lastNode : String) (hseq : seqs lastNode ≠ "") :
    ∀ (rest : List String) (hne : rest ≠ []) (prev : String) (cum : ℕ),
      rest.getLast hne = lastNode →
      (stepFrames seqs ham lastNode prev rest cum).getLast? =
        some ⟨lastNode, cum + sumDists ham prev rest⟩ := by
  intro rest
  induction rest with
  | nil => intro hne; exact absurd rfl hne
  | cons n rest ih =>
    intro hne prev cum hlast
    cases rest with
    | nil =>
      simp only [List.getLast_singleton] at hlast
      subst hlast
      rw [stepFrames_cons]
      rw [if_pos ⟨Or.inr rfl, hseq⟩]
      simp [stepFrames, cumSteps, sumDists]
    | cons m rest' =>
      have hlast' : (m :: rest').getLast (by simp) = lastNode :=
        (List.getLast_cons (by simp)).symm.trans hlast
      have hrec := ih (by simp) n (cum + ham prev n) hlast'
      rw [stepFrames_cons]
      rw [List.getLast?_append_of_ne_nil _ (by
        intro hnil
        rw [hnil] at hrec
        exact absurd hrec (by simp))]
      rw [hrec]
      have heq : cum + ham prev n + sumDists ham n (m :: rest') =
          cum + sumDists ham prev (n :: m :: rest') := by
        simp only [sumDists]
        omega
      rw [heq]

theorem mem_stepFrames_seq {seqs : String → String} {ham : String → String → ℕ}
    {lastNode : String} :
    ∀ {rest : List String} {prev : String} {cum : ℕ} {f : Frame},
      f ∈ stepFrames seqs ham lastNode prev rest cum → seqs f.node ≠ "" := by
  intro rest prev cum f hf
  unfold stepFrames at hf
  rw [List.mem_filterMap] at hf
  obtain ⟨s, _, hs⟩ := hf
  by_cases hc : (ham s.1 s.2.1 ≠ 0 ∨ s.2.1 = lastNode) ∧ seqs s.2.1 ≠ ""
  · rw [if_pos hc] at hs
    obtain rfl := Option.some_inj.mp hs
    exact hc.2
  · rw [if_neg hc] at hs
    exact absurd hs (by simp)

theorem cumSteps_length (ham : String → String → ℕ) :
    ∀ (rest : List String) (prev : String) (cum : ℕ),
      (cumSteps ham prev rest cum).length = rest.length := by
  intro rest
  induction rest with
  | nil => intro prev cum; rfl
  | cons n rest ih =>
    intro prev cum
    rw [cumSteps, List.length_cons, List.length_cons, ih]

/-- C4, counterexample to the claim as stated: on the path `["R", "T"]`
with branch distance 5 and the tip `"T"` absent from the alignment, the
last frame (the tip) is not emitted, although the claim says the last
frame is always emitted. -/
theorem claim_c4_counterexample :
    (writeTrajectory ["R", "T"]
      (fun n => if n = "R" then "AC" else "") (fun a b => 5)).1 =
      [⟨"R", 0⟩] ∧
    ∀ f ∈ (writeTrajectory ["R", "T"]
      (fun n => if n = "R" then "AC" else "") (fun a b => 5)).1,
      f.node ≠ "T" := by
  constructor
  · rfl
  · decide

/-- C4 (amended): an entry is emitted for a path node iff it is the path
start, or its incoming branch distance is nonzero, or it carries the
terminal tip's name — and, additionally, its sequence is present in the
alignment; the cumulative distances count every branch, emitted or not
(`emittedReference` states this shape node by node).  In particular the
first frame is emitted whenever the start's sequence is present, and the
last frame whenever the tip's sequence is present. -/
theorem claim_c4_emission (path : List String) (seqs : String → String)
    (ham : String → String → ℕ) (hne : path ≠ []) :
    writeTrajectory path seqs ham =
      (emittedReference path seqs ham, totalDist ham path) ∧
    (seqs (path.head hne) ≠ "" →
      (writeTrajectory path seqs ham).1.head? = some ⟨path.head hne, 0⟩) ∧
    (seqs (path.getLast hne) ≠ "" →
      (writeTrajectory path seqs ham).1.getLast? =
        some ⟨path.getLast hne, (writeTrajectory path seqs ham).2⟩) := by
  refine ⟨writeTrajectory_spec path seqs ham, ?_, ?_⟩
  · intro hfirst
    rcases path with _ | ⟨f, r⟩
    · exact absurd rfl hne
    · rw [writeTrajectory_spec]
      simp only [emittedReference, List.head_cons] at hfirst ⊢
      rw [if_neg hfirst]
      rfl
  · intro hlastseq
    rcases path with _ | ⟨f, r⟩
    · exact absurd rfl hne
    · rw [writeTrajectory_spec]
      rcases r with _ | ⟨m, r'⟩
      · simp only [List.getLast_singleton] at hlastseq ⊢
        simp [emittedReference, stepFrames, cumSteps, totalDist, sumDists,
          if_neg hlastseq]
      · simp only [emittedReference, totalDist]
        rw [List.getLast?_append_of_ne_nil, stepFrames_getLast seqs ham _ hlastseq
          (m :: r') (by simp) f 0 rfl]
        · rw [Nat.zero_add]
        · intro hnil
          have := stepFrames_getLast seqs ham _ hlastseq (m :: r') (by simp) f 0 rfl
          rw [hnil] at this
          exact absurd this (by simp)

/-- C9: `write_trajectory` emits an entry only for nodes whose sequence is
present in the alignment; the cumulative distance nevertheless accumulates
over every branch of the path (`totalDist`), so skipped nodes still
contribute distance; the trajectory has at most as many frames as path
nodes; and on the concrete two-node path whose sequences are all missing
the emitted trajectory is empty while the distance is still counted. -/
theorem claim_c9_missing_sequence_skips :
    (∀ (path : List String) (seqs : String → String) (ham : String → String → ℕ),
      (∀ f ∈ (writeTrajectory path seqs ham).1, seqs f.node ≠ "") ∧
      (writeTrajectory path seqs ham).2 = totalDist ham path ∧
      (writeTrajectory path seqs ham).1.length ≤ path.length) ∧
    (writeTrajectory ["R", "T"] (fun n => "") (fun a b => 5)).1 = [] ∧
    (writeTrajectory ["R", "T"] (fun n => "") (fun a b => 5)).2 = 5 := by
  refine ⟨?_, by rfl, by rfl⟩
  intro path seqs ham
  refine ⟨?_, by rw [writeTrajectory_spec], ?_⟩
  · intro f hf
    rw [writeTrajectory_spec] at hf
    rcases path with _ | ⟨p0, rest⟩
    · exact absurd hf (by simp [emittedReference])
    · simp only [emittedReference] at hf
      rcases List.mem_append.mp hf with h | h
      · by_cases h0 : seqs p0 = ""
        · rw [if_pos h0] at h
          exact absurd h (by simp)
        · rw [if_neg h0] at h
          rcases List.mem_singleton.mp h with rfl
          exact h0
      · exact mem_stepFrames_seq h
  · rw [writeTrajectory_spec]
    rcases path with _ | ⟨p0, rest⟩
    · simp [emittedReference]
    · simp only [emittedReference]
      have h1 : (stepFrames seqs ham ((p0 :: rest).getLast (by simp)) p0 rest 0).length ≤
          rest.length := by
        unfold stepFrames
        calc (List.filterMap _ (cumSteps ham p0 rest 0)).length
            ≤ (cumSteps ham p0 rest 0).length := List.length_filterMap_le _ _
          _ = rest.length := cumSteps_length ham rest p0 0
      have h2 : (if seqs p0 = "" then ([] : List Frame) else [⟨p0, 0⟩]).length ≤ 1 := by
        by_cases h0 : seqs p0 = "" <;> simp [h0]
      rw [List.length_append, List.length_cons]
      omega

/-- C1: for every tree with distinct node names and for either strategy —
RandomClades (`iterative_test_selection`, any proportions, walk depth,
shuffle order and fuel) or `monophyletic_test_selection` — the returned
`test_nodes` set is downward-closed: with a node id every descendant id is
in the set, so no node is train while an ancestor is test. -/
theorem claim_c1_downward_closed (tree : Tree)
    (hnd : (getAllDescendants tree).Nodup) :
    (∀ (p mq : ℚ) (mb : ℕ) (gene : String) (shuffled : List String)
      (tb te : Option ℤ) (wf : ℕ),
      DownClosed tree (iterativeTestSelection tree p mb mq gene shuffled tb te wf).1) ∧
    (∀ (p tol : ℚ) (tn tt : Finset String),
      monophyleticTestSelection tree p tol = some (tn, tt) → DownClosed tree tn) := by
  constructor
  · intro p mq mb gene shuffled tb te wf
    exact cladeUnion_downClosed hnd
      (iterLoop_cladeUnion tree (parentMapLookup tree) (getAllTips tree)
        (targetTestCount (getAllTips tree).length p)
        (maxCladeTipsOf (getAllTips tree).length mq) mb gene tb te wf
        shuffled.reverse ∅ ∅ ∅ (cladeUnion_empty tree))
  · intro p tol tn tt h
    unfold monophyleticTestSelection at h
    dsimp only at h
    split at h
    · exact absurd h (by simp)
    · next clade cnt dep hfind =>
      obtain ⟨h1, _⟩ := Prod.mk.injEq .. |>.mp (Option.some_inj.mp h)
      have hm := findMonophyleticClade_mem hfind
      obtain ⟨sd, hsd, _, heq⟩ := mem_monoCandidates.mp hm
      obtain ⟨rfl, _⟩ := Prod.mk.injEq .. |>.mp heq
      have hclade : sd.1 ∈ preorder tree := by
        rw [← preorderDepth_fst tree 0]
        exact List.mem_map_of_mem Prod.fst hsd
      have hcu := cladeUnion_union_descs hclade (cladeUnion_empty tree)
      rw [Finset.empty_union] at hcu
      rw [← h1]
      exact cladeUnion_downClosed hnd hcu

/-- C3, counterexample to the claim as stated: with 10 tips and test
proportion 0.19 the code's `int()` truncation gives a target of 1 while
the claimed `round` formula gives 2, so the strategies do not round to the
nearest integer. -/
theorem claim_c3_counterexample :
    targetTestCount 10 (19/100) = 1 ∧ roundTargetSpec 10 (19/100) = 2 := by
  have hprod : ((10 : ℕ) : ℚ) * (19/100) = 19/10 := by norm_num
  constructor
  · have hfl : ⌊((10 : ℕ) : ℚ) * (19/100)⌋ = 1 := by
      rw [hprod, Int.floor_eq_iff]
      norm_num
    unfold targetTestCount pyTrunc
    rw [if_pos (by rw [hprod]; norm_num), hfl]
    rfl
  · have hrd : round (((10 : ℕ) : ℚ) * (19/100)) = 2 := by
      rw [hprod, round_eq, Int.floor_eq_iff]
      norm_num
    unfold roundTargetSpec
    rw [hrd]
    rfl

/-- C3 (amended): for non-negative proportions both strategies' target is
`max(1, floor(total_tips * test_proportion))` — `int()` truncation, not
rounding — and RandomClades' clade cap is
`floor(total_tips * max_clade_proportion)`. -/
theorem claim_c3_floor_formulas (t : ℕ) (p q : ℚ) (hp : 0 ≤ p) (hq : 0 ≤ q) :
    targetTestCount t p = max 1 (⌊(t : ℚ) * p⌋).toNat ∧
    maxCladeTipsOf t q = (⌊(t : ℚ) * q⌋).toNat := by
  have h1 : (0 : ℚ) ≤ (t : ℚ) * p := mul_nonneg (by positivity) hp
  have h2 : (0 : ℚ) ≤ (t : ℚ) * q := mul_nonneg (by positivity) hq
  unfold targetTestCount maxCladeTipsOf pyTrunc
  rw [if_pos h1, if_pos h2]
  exact ⟨rfl, rfl⟩

/-- C5: for `n ≥ 2` and `idx < n*(n-1)/2`, the index inversion of
`generate_pairs` — any initial estimate followed by the two adjustment
loops — returns the unique pair `(j, i)` with `j < i < n` and
`i*(i-1)/2 + j = idx`, the exact inverse of the row-by-row enumeration. -/
theorem claim_c5_pair_inversion (n idx i0 : ℕ) (hn : 2 ≤ n)
    (hidx : idx < n * (n - 1) / 2) :
    ((invertPair idx i0).1 < (invertPair idx i0).2 ∧
     (invertPair idx i0).2 < n ∧
     (invertPair idx i0).2 * ((invertPair idx i0).2 - 1) / 2 +
       (invertPair idx i0).1 = idx) ∧
    ∀ j i, j < i → i < n → i * (i - 1) / 2 + j = idx →
      (j, i) = invertPair idx i0 := by
  obtain ⟨h1, h2, h3, h4⟩ := invertPair_correct n idx i0 hn hidx
  refine ⟨⟨h1, h2, h3⟩, ?_⟩
  intro j i hji hin hsum
  obtain ⟨hj, hi⟩ := h4 j i hji hin hsum
  rw [hj, hi]

/-- C6: `find_monophyletic_clade` fails (raises) iff no node's subtree tip
count lies in the window `[target*(1-tol), target*(1+tol)]`; whenever it
returns a clade, that clade's tip count lies in the window — it never
returns a non-conforming clade. -/
theorem claim_c6_monophyletic_window (t : Tree) (target : ℕ) (tol : ℚ) :
    (findMonophyleticClade t target tol = none ↔
      ∀ s ∈ preorder t,
        ¬((target : ℚ) * (1 - tol) ≤ (cladeTipCount s : ℚ) ∧
          (cladeTipCount s : ℚ) ≤ (target : ℚ) * (1 + tol))) ∧
    ∀ s c d, findMonophyleticClade t target tol = some (s, c, d) →
      c = cladeTipCount s ∧ s ∈ preorder t ∧
      (target : ℚ) * (1 - tol) ≤ (c : ℚ) ∧
      (c : ℚ) ≤ (target : ℚ) * (1 + tol) := by
  constructor
  · constructor
    · intro hnone s hs hcond
      have hmem : (s, cladeTipCount s, 0) ∈ monoCandidates t target tol ∨
          monoCandidates t target tol ≠ [] := by
        right
        intro hnil
        obtain ⟨sd, hsd, hfst⟩ := List.mem_map.mp
          (by rw [preorderDepth_fst t 0]; exact hs :
            s ∈ (preorderDepth t 0).map Prod.fst)
        have := List.filterMap_eq_nil.mp hnil sd hsd
        rw [hfst] at this
        rw [if_pos hcond] at this
        exact absurd this (by simp)
      rcases hmem with hmem | hne
      · unfold findMonophyleticClade at hnone
        split at hnone
        · next hcand => rw [hcand] at hmem; exact absurd hmem (List.not_mem_nil _)
        · exact absurd hnone (by simp)
      · unfold findMonophyleticClade at hnone
        split at hnone
        · next hcand => exact hne hcand
        · exact absurd hnone (by simp)
    · intro hall
      have hnil : monoCandidates t target tol = [] := by
        unfold monoCandidates
        rw [List.filterMap_eq_nil]
        intro sd hsd
        have hs : sd.1 ∈ preorder t := by
          rw [← preorderDepth_fst t 0]
          exact List.mem_map_of_mem Prod.fst hsd
        rw [if_neg (hall sd.1 hs)]
      unfold findMonophyleticClade
      split
      · rfl
      · next c cs hcand => rw [hnil] at hcand; exact absurd hcand (by simp)
  · intro s c d h
    have hm := findMonophyleticClade_mem h
    obtain ⟨sd, hsd, hcond, heq⟩ := mem_monoCandidates.mp hm
    obtain ⟨hs, hcd⟩ := Prod.mk.injEq .. |>.mp heq
    obtain ⟨hc, _⟩ := Prod.mk.injEq .. |>.mp hcd
    subst hs
    subst hc
    refine ⟨rfl, ?_, hcond.1, hcond.2⟩
    rw [← preorderDepth_fst t 0]
    exact List.mem_map_of_mem Prod.fst hsd

/-- C7: `walk_back_mutations` with `target_mutations = 0` returns the tip
itself (0 hops): the check `accumulated >= target` fires before any move
to the parent, and a tip that is itself the root is returned directly. -/
theorem claim_c7_walk_back_zero (pm : String → Option String)
    (nm : String → Option Tree) (gene : String) (tb te : Option ℤ)
    (fuel : ℕ) (tip : String) :
    walkBackMutations pm nm 0 gene tb te fuel tip = tip := by
  unfold walkBackMutations walkBackAux
  rcases pm tip with _ | parent
  · rfl
  · rcases fuel with _ | f
    · rfl
    · dsimp only
      rw [if_pos (Nat.zero_le _)]

/-- C10: `parse_branches` labels only nodes of the child column, so any
node never appearing as a child (in particular the root) has no label;
hence `find_test_boundary` never returns index 0 on a path headed by such
a node, and every clade root of `find_test_clade_roots` is a child-column
(non-root) node. -/
theorem claim_c10_root_unlabelled (rows : List BranchRow) :
    (∀ node, node ∉ childNames rows → trainTestOfRows rows node = none) ∧
    (∀ (path : List String) (r : String), path.head? = some r →
      r ∉ childNames rows →
      findTestBoundary path (trainTestOfRows rows) ≠ some 0) ∧
    (∀ c ∈ findTestCladeRoots rows, c ∈ childNames rows) := by
  have ha : ∀ node, node ∉ childNames rows → trainTestOfRows rows node = none := by
    intro node hmem
    unfold trainTestOfRows
    have hgen : ∀ (l : List BranchRow), (∀ r ∈ l, r.child ≠ node) →
        ∀ acc : Option String,
        l.foldl (fun acc r =>
          if r.child = node ∧ r.trainTest ≠ "" then some r.trainTest else acc) acc = acc := by
      intro l
      induction l with
      | nil => intro _ acc; rfl
      | cons r0 rs ih =>
        intro hl acc
        rw [List.foldl_cons, if_neg (by
          rintro ⟨hc, _⟩
          exact hl r0 (List.mem_cons_self _ _) hc)]
        exact ih (fun r hr => hl r (List.mem_cons.mpr (Or.inr hr))) acc
    exact hgen rows
      (fun r hr hc => hmem (hc ▸ List.mem_map_of_mem BranchRow.child hr)) none
  refine ⟨ha, ?_, ?_⟩
  · intro path r hhead hmem heq
    rcases path with _ | ⟨p0, rest⟩
    · exact absurd hhead (by simp)
    · have hp0 : p0 = r := by
        simp only [List.head?_cons] at hhead
        exact Option.some_inj.mp hhead
      rw [findTestBoundary, findTestBoundaryAux, if_neg (by
        rw [hp0, ha r hmem]
        simp)] at heq
      obtain ⟨hle, _, _, _⟩ := findTestBoundaryAux_some heq
      omega
  · intro c hc
    unfold findTestCladeRoots at hc
    exact (List.mem_dedup.mp (List.mem_filter.mp hc).1)

/-- C8: with 5 distinct items and limit 3 (and a draw stream within range
that yields 3 indices within the fuel bound), `generate_pairs` produces
exactly 3 pairwise-distinct unordered pairs, each made of two distinct
members of the items; and the output is a function of the items and the
seed-determined draw stream alone (same seed, same pairs). -/
theorem claim_c8_pair_sampling (items : List String) (stream : ℕ → ℕ)
    (fuel : ℕ) (hlen : items.length = 5) (hnd : items.Nodup)
    (hstream : ∀ k, stream k < 10)
    (hsamp : (sampleIndices stream 3 fuel 0 []).length = 3) :
    (generatePairs items (some 3) stream fuel).length = 3 ∧
    (generatePairs items (some 3) stream fuel).Nodup ∧
    (∀ pr ∈ generatePairs items (some 3) stream fuel,
      pr.1 ∈ items ∧ pr.2 ∈ items ∧ pr.1 ≠ pr.2) ∧
    (∀ stream2 : ℕ → ℕ, (∀ k, stream2 k = stream k) →
      generatePairs items (some 3) stream2 fuel =
        generatePairs items (some 3) stream fuel) := by
  have hgp : generatePairs items (some 3) stream fuel =
      (sampleIndices stream 3 fuel 0 []).map fun idx =>
        let pr := invertPair idx (initEstimate idx)
        (items.getD pr.1 "", items.getD pr.2 "") := by
    unfold generatePairs
    rw [hlen]
    dsimp only
    rw [if_neg (by norm_num)]
  obtain ⟨hS1, hS2, _⟩ :=
    sampleIndices_sound stream 3 fuel 0 [] (by simp) (by simp) (by simp)
  have hidx10 : ∀ x ∈ sampleIndices stream 3 fuel 0 [], x < triIdx 5 := by
    intro x hx
    obtain ⟨m, rfl⟩ := hS2 x hx
    exact hstream m
  have hcorrect := fun idx (h : idx < triIdx 5) =>
    invertPair_correct 5 idx (initEstimate idx) (by norm_num) h
  have hgetD : ∀ k, k < 5 → ∃ hk : k < items.length,
      items.getD k "" = items.get ⟨k, hk⟩ := by
    intro k hk
    have hk' : k < items.length := by omega
    exact ⟨hk', List.getD_eq_get items "" hk'⟩
  refine ⟨by rw [hgp, List.length_map, hsamp], ?_, ?_, ?_⟩
  · rw [hgp]
    refine List.Nodup.map_on ?_ hS1
    intro x hx y hy hf
    obtain ⟨hx1, hx2, hx3, _⟩ := hcorrect x (hidx10 x hx)
    obtain ⟨hy1, hy2, hy3, _⟩ := hcorrect y (hidx10 y hy)
    obtain ⟨hjx, hgx⟩ := hgetD _ (by omega : (invertPair x (initEstimate x)).1 < 5)
    obtain ⟨hix, hgx2⟩ := hgetD _ hx2
    obtain ⟨hjy, hgy⟩ := hgetD _ (by omega : (invertPair y (initEstimate y)).1 < 5)
    obtain ⟨hiy, hgy2⟩ := hgetD _ hy2
    simp only [hgx, hgx2, hgy, hgy2, Prod.mk.injEq] at hf
    obtain ⟨hfst, hsnd⟩ := hf
    have hj : (invertPair x (initEstimate x)).1 = (invertPair y (initEstimate y)).1 := by
      have := (List.Nodup.get_inj_iff hnd).mp hfst
      exact Fin.val_eq_val .. |>.mpr this
    have hi : (invertPair x (initEstimate x)).2 = (invertPair y (initEstimate y)).2 := by
      have := (List.Nodup.get_inj_iff hnd).mp hsnd
      exact Fin.val_eq_val .. |>.mpr this
    rw [← hx3, ← hy3, hj, hi]
  · intro pr hpr
    rw [hgp] at hpr
    obtain ⟨idx, hidxS, heq⟩ := List.mem_map.mp hpr
    obtain ⟨h1, h2, _, _⟩ := hcorrect idx (hidx10 idx hidxS)
    obtain ⟨hj, hgj⟩ := hgetD _ (by omega : (invertPair idx (initEstimate idx)).1 < 5)
    obtain ⟨hi, hgi⟩ := hgetD _ h2
    rw [← heq]
    dsimp only
    rw [hgj, hgi]
    refine ⟨List.get_mem items _ _, List.get_mem items _ _, ?_⟩
    intro hcontra
    have := (List.Nodup.get_inj_iff hnd).mp hcontra
    have hval : (invertPair idx (initEstimate idx)).1 =
        (invertPair idx (initEstimate idx)).2 := Fin.val_eq_val .. |>.mpr this
    omega
  · intro stream2 h2
    rw [funext h2]

/-! ## Witnesses: concrete instantiations discharging each hypothesis -/

theorem claim_c1_witness :
    DownClosed (Tree.node "R" [] [Tree.node "A" [] [], Tree.node "B" [] []])
      (iterativeTestSelection (Tree.node "R" [] [Tree.node "A" [] [], Tree.node "B" [] []])
        (1/10) 5 (1/10) "nuc" ["A", "B"] none none 5).1 :=
  (claim_c1_downward_closed _ (by decide)).1 (1/10) (1/10) 5 "nuc" ["A", "B"] none none 5

theorem claim_c2_witness :
    (getPathToRoot
        (fun n => if n = "C" then some "B" else if n = "B" then some "A" else none)
        5 "C").reverse.head? = some "A" ∧
    (fun n => if n = "C" then some "B" else if n = "B" then some "A" else none) "A"
      = none :=
  (claim_c2_truncation
    (fun n => if n = "C" then some "B" else if n = "B" then some "A" else none)
    (fun n => if n = "C" then some "test" else if n = "B" then some "test" else none)
    "C" "A" 5 (by decide) (by decide)).1

theorem claim_c3_witness :
    targetTestCount 10 (19/100) = max 1 (⌊((10 : ℕ) : ℚ) * (19/100)⌋).toNat ∧
    maxCladeTipsOf 10 (19/100) = (⌊((10 : ℕ) : ℚ) * (19/100)⌋).toNat :=
  claim_c3_floor_formulas 10 (19/100) (19/100) (by norm_num) (by norm_num)

theorem claim_c4_witness :
    writeTrajectory ["A", "B"] (fun n => "G") (fun a b => 2) =
      (emittedReference ["A", "B"] (fun n => "G") (fun a b => 2),
        totalDist (fun a b => 2) ["A", "B"]) :=
  (claim_c4_emission ["A", "B"] (fun n => "G") (fun a b => 2) (by decide)).1

theorem claim_c5_witness :
    (invertPair 4 (initEstimate 4)).1 < (invertPair 4 (initEstimate 4)).2 ∧
    (invertPair 4 (initEstimate 4)).2 < 4 ∧
    (invertPair 4 (initEstimate 4)).2 * ((invertPair 4 (initEstimate 4)).2 - 1) / 2 +
      (invertPair 4 (initEstimate 4)).1 = 4 :=
  (claim_c5_pair_inversion 4 4 (initEstimate 4) (by norm_num) (by norm_num)).1

theorem claim_c6_witness :
    (1 : ℕ) = cladeTipCount (Tree.node "R" [] []) ∧
    Tree.node "R" [] [] ∈ preorder (Tree.node "R" [] []) ∧
    ((1 : ℕ) : ℚ) * (1 - 1) ≤ ((1 : ℕ) : ℚ) ∧
    ((1 : ℕ) : ℚ) ≤ ((1 : ℕ) : ℚ) * (1 + 1) :=
  (claim_c6_monophyletic_window (Tree.node "R" [] []) 1 1).2
    (Tree.node "R" [] []) 1 0 (by
      have hcand : monoCandidates (Tree.node "R" [] []) 1 1 =
          [(Tree.node "R" [] [], 1, 0)] := by
        unfold monoCandidates
        rw [show preorderDepth (Tree.node "R" [] []) 0 =
          [(Tree.node "R" [] [], 0)] from rfl]
        rw [List.filterMap_cons]
        dsimp only
        rw [show cladeTipCount (Tree.node "R" [] []) = 1 from rfl]
        rw [if_pos (by norm_num)]
        rfl
      unfold findMonophyleticClade
      rw [hcand]
      rfl)

theorem claim_c8_witness :
    (generatePairs ["a", "b", "c", "d", "e"] (some 3) (fun k => k % 10) 3).length = 3 :=
  (claim_c8_pair_sampling ["a", "b", "c", "d", "e"] (fun k => k % 10) 3
    (by decide) (by decide) (fun k => Nat.mod_lt k (by norm_num)) (by decide)).1

theorem claim_c9_witness :
    (fun n => if n = "X" then "G" else "") (Frame.mk "X" 0).node ≠ "" :=
  (claim_c9_missing_sequence_skips.1 ["X"] (fun n => if n = "X" then "G" else "")
    (fun a b => 0)).1 ⟨"X", 0⟩ (by decide)

theorem claim_c10_witness :
    findTestBoundary ["R", "B"]
      (trainTestOfRows [⟨"R", "B", some 1, "test"⟩]) ≠ some 0 :=
  (claim_c10_root_unlabelled [⟨"R", "B", some 1, "test"⟩]).2.1 ["R", "B"] "R" rfl
    (by decide)

end Trajectories
